import Mathlib

/-!
Verification development for the Downloads-folder inventory monitor.

The definitions below are a shallow embedding of the Python source:
`file_monitor.py` (scanning, SHA1 fingerprinting, timestamp comparison,
CSV store load, merge/deduplication) and `duplicate_detector.py`
(duplicate grouping and cleanup advice).  Filesystem and hashlib calls
are modelled by explicit state records passed as arguments; machine
details that the algorithms never inspect (actual SHA1 arithmetic,
file encodings) are abstracted behind function parameters.  String
splitting is performed on the underlying character list so that every
definition evaluates inside the kernel.
-/

/-- A wall-clock instant as Python's `datetime` stores it: the six
calendar/time fields.  `datetime` objects compare lexicographically by
(year, month, day, hour, minute, second). -/
structure PyDateTime where
  year : Nat
  month : Nat
  day : Nat
  hour : Nat
  minute : Nat
  second : Nat
deriving DecidableEq, Repr

/-- Split a character list at every occurrence of the separator, the
behaviour of Python's `str.split` with a one-character separator. -/
def splitOnChar (c : Char) : List Char → List (List Char)
  | [] => [[]]
  | x :: xs =>
    if x = c then [] :: splitOnChar c xs
    else
      match splitOnChar c xs with
      | [] => [[x]]
      | h :: t => (x :: h) :: t

/-- Digits-only character list read as a decimal number; `none` when
empty or containing a non-digit, as `int` parsing inside `strptime`
and `fromisoformat` requires. -/
def digitsToNat? (l : List Char) : Option Nat :=
  if l ≠ [] ∧ l.all Char.isDigit then
    some (l.foldl (fun n c => n * 10 + (c.toNat - '0'.toNat)) 0)
  else none

/-- Digits-only field of exactly 4 characters, as `%Y` requires. -/
def parse4 (l : List Char) : Option Nat :=
  if l.length = 4 then digitsToNat? l else none

/-- Digits-only field of exactly 2 characters, as the zero-padded
two-digit fields of the canonical timestamp format require. -/
def parse2 (l : List Char) : Option Nat :=
  if l.length = 2 then digitsToNat? l else none

/-- Digits-only field of 1 or 2 characters: `strptime`'s `%y`, `%m`,
`%d` directives each match one or two digits. -/
def parse12 (l : List Char) : Option Nat :=
  if l.length = 1 ∨ l.length = 2 then digitsToNat? l else none

/-- Gregorian leap-year rule, as Python's `datetime` validates dates. -/
def isLeapYear (y : Nat) : Bool :=
  (y % 4 == 0 && y % 100 != 0) || y % 400 == 0

/-- Number of days in a month, used by `datetime` date validation. -/
def daysInMonth (y m : Nat) : Nat :=
  if m = 2 then (if isLeapYear y then 29 else 28)
  else if m = 4 ∨ m = 6 ∨ m = 9 ∨ m = 11 then 30
  else 31

/-- Construct a validated `datetime` value; `none` models the
`ValueError` Python raises for out-of-range fields. -/
def mkDateTime (y mo d h mi s : Nat) : Option PyDateTime :=
  if 1 ≤ y ∧ y ≤ 9999 ∧ 1 ≤ mo ∧ mo ≤ 12 ∧ 1 ≤ d ∧ d ≤ daysInMonth y mo
      ∧ h ≤ 23 ∧ mi ≤ 59 ∧ s ≤ 59 then
    some ⟨y, mo, d, h, mi, s⟩
  else none

/-- Models `datetime.fromisoformat` on the canonical form this program
itself writes, `strftime("%Y-%m-%dT%H:%M:%S")`: a `YYYY-MM-DDTHH:MM:SS`
string with validated fields.  `none` models the `ValueError` raised on
any other input. -/
def fromisoformat (s : String) : Option PyDateTime :=
  match splitOnChar 'T' s.toList with
  | [ds, ts] =>
    match splitOnChar '-' ds, splitOnChar ':' ts with
    | [ys, ms, dds], [hs, mis, ss] => do
      let y ← parse4 ys
      let mo ← parse2 ms
      let d ← parse2 dds
      let h ← parse2 hs
      let mi ← parse2 mis
      let sec ← parse2 ss
      mkDateTime y mo d h mi sec
    | _, _ => none
  | _ => none

/-- Models `datetime.strptime(s, "%y/%m/%d")`: a two-digit year mapped
to 2000–2068 / 1969–1999, at midnight.  `none` models `ValueError`. -/
def strptimeLegacy (s : String) : Option PyDateTime :=
  match splitOnChar '/' s.toList with
  | [ys, ms, ds] => do
    let yy ← parse12 ys
    let mo ← parse12 ms
    let d ← parse12 ds
    let y := if yy ≤ 68 then 2000 + yy else 1900 + yy
    mkDateTime y mo d 0 0 0
  | _ => none

/-- Three-way comparison on naturals, in the -1/0/1 convention the
Python function returns. -/
def natCmp (a b : Nat) : Int :=
  if a < b then -1 else if b < a then 1 else 0

/-- Three-way comparison of `datetime` instants (lexicographic by
field, exactly the order Python's `datetime` comparison uses). -/
def dtCmp (a b : PyDateTime) : Int :=
  if a.year ≠ b.year then natCmp a.year b.year
  else if a.month ≠ b.month then natCmp a.month b.month
  else if a.day ≠ b.day then natCmp a.day b.day
  else if a.hour ≠ b.hour then natCmp a.hour b.hour
  else if a.minute ≠ b.minute then natCmp a.minute b.minute
  else natCmp a.second b.second

/-- Three-way lexicographic comparison of character lists by code
point, with a proper prefix ordered first: Python's `<`/`>` on `str`. -/
def listCmp : List Char → List Char → Int
  | [], [] => 0
  | [], _ :: _ => -1
  | _ :: _, [] => 1
  | a :: as, b :: bs =>
    if a.toNat < b.toNat then -1
    else if b.toNat < a.toNat then 1
    else listCmp as bs

/-- Three-way lexicographic comparison of raw strings, the `except`
fallback path of `compare_timestamps`. -/
def strCmp (a b : String) : Int :=
  listCmp a.toList b.toList

/-- Models `compare_timestamps` from `file_monitor.py` (lines 255–289):
if both strings contain `T` they are parsed as ISO8601, otherwise both
are parsed with the legacy `%y/%m/%d` format; any parse failure in the
chosen branch falls back to raw string comparison (the `except` arm). -/
def compare_timestamps (ts1 ts2 : String) : Int :=
  if ts1.toList.contains 'T' && ts2.toList.contains 'T' then
    match fromisoformat ts1, fromisoformat ts2 with
    | some d1, some d2 => dtCmp d1 d2
    | _, _ => strCmp ts1 ts2
  else
    match strptimeLegacy ts1, strptimeLegacy ts2 with
    | some d1, some d2 => dtCmp d1 d2
    | _, _ => strCmp ts1 ts2

/-- Modelled from the spec: normalize a timestamp that may be in either
the canonical ISO8601 form or the legacy short-date form to an instant,
whichever representation it uses. -/
def normalizeTimestamp (s : String) : Option PyDateTime :=
  match fromisoformat s with
  | some d => some d
  | none => strptimeLegacy s

/-- Modelled from the spec: compare two timestamps by normalizing each
to a comparable instant (accepting both representations in either
order) and comparing the instants, falling back to raw lexical
comparison only when parsing fails. -/
def compareTimestampsSpec (ts1 ts2 : String) : Int :=
  match normalizeTimestamp ts1, normalizeTimestamp ts2 with
  | some d1, some d2 => dtCmp d1 d2
  | _, _ => strCmp ts1 ts2

/-- An inventory record, the dictionary built by `_create_file_info`
and round-tripped through the CSV store.  The model keeps the fields
the algorithms read: `folder_name` (the group, `"~"` for the root),
`filename`, `sha1` (`none` when hashing was disabled or failed, the
fingerprint hex digest or the `"SKIPPED_TOO_LARGE"` sentinel
otherwise; the loader stores `""` for a missing column) and
`timestamp` (the canonical ISO8601 modification time).  The transient
`root_dir`/`full_path`/`rel_path` entries are deterministic functions
of these fields and are never read by merge, detection or cleanup. -/
structure FileRecord where
  folder_name : String
  filename : String
  sha1 : Option String
  timestamp : String
deriving DecidableEq, Repr

/-- Python's `sha1 and sha1 != "SKIPPED_TOO_LARGE"` test: a usable
content fingerprint is present, non-empty and not the sentinel.  The
same truthiness test appears in `update_csv_data` (negated) and in
`DuplicateDetector.find_duplicates`. -/
def usableSha1 : Option String → Bool
  | none => false
  | some s => if s = "" ∨ s = "SKIPPED_TOO_LARGE" then false else true

/-- The `"PATH:{folder_name}/{filename}"` fallback key built in
`update_csv_data` for records without a usable fingerprint. -/
def pathKey (r : FileRecord) : String :=
  "PATH:" ++ r.folder_name ++ "/" ++ r.filename

/-- The identity key `update_csv_data` indexes by: the fingerprint
when usable, otherwise the path fallback (lines 317–320 and 334–336
of `file_monitor.py`). -/
def keyOf (r : FileRecord) : String :=
  match r.sha1 with
  | some s => if s = "" ∨ s = "SKIPPED_TOO_LARGE" then pathKey r else s
  | none => pathKey r

/-- The inner loop of `update_csv_data` lines 344–348: start from the
fresh record and replace it by any indexed previous record whose
timestamp compares strictly later. -/
def mostRecent (newItem : FileRecord) (existingItems : List FileRecord) : FileRecord :=
  existingItems.foldl
    (fun acc ex => if compare_timestamps ex.timestamp acc.timestamp > 0 then ex else acc)
    newItem

/-- The `sha1_index` of `update_csv_data` lines 309–324, read at one
key: the non-excluded previous records whose identity key equals `k`,
in their original order (Python appends to a per-key list). -/
def mergeIndex (existing : List FileRecord) (excl : List String) (k : String) : List FileRecord :=
  existing.filter (fun p => p.filename ∉ excl ∧ keyOf p = k)

/-- The record emitted for a fresh record `n`: `n` itself when its key
is absent from the index (line 357), otherwise the most recent of `n`
and the indexed previous records (lines 341–350). -/
def keptRecord (existing : List FileRecord) (excl : List String) (n : FileRecord) : FileRecord :=
  if (mergeIndex existing excl (keyOf n)).isEmpty then n
  else mostRecent n (mergeIndex existing excl (keyOf n))

/-- The `for new_item in new_data` loop of `update_csv_data` lines
330–358, carrying the `processed_keys` set: excluded filenames and
already-processed keys are skipped, every other fresh record emits
exactly one record for its key. -/
def updateLoop (existing : List FileRecord) (excl : List String) :
    List FileRecord → List String → List FileRecord
  | [], _ => []
  | n :: rest, processed =>
    if n.filename ∈ excl then updateLoop existing excl rest processed
    else if keyOf n ∈ processed then updateLoop existing excl rest processed
    else keptRecord existing excl n :: updateLoop existing excl rest (keyOf n :: processed)

/-- Models `update_csv_data` from `file_monitor.py` (lines 292–361):
merge the previous store with a fresh scan, deduplicating by identity
key and keeping the most recent record per key. -/
def update_csv_data (existing newData : List FileRecord) (excl : List String) : List FileRecord :=
  updateLoop existing excl newData []

/-- The default `excluded_files` list of `update_csv_data` (line 307),
used when the caller passes none — in particular by
`clean_duplicate_sha1s`, which merges the store with itself. -/
def defaultMergeExcluded : List String :=
  ["desktop.ini", "Thumbs.db", ".DS_Store"]

/-- The slice of the OS interface the scanner touches.  Paths are
segment lists relative to the Downloads root: `listdir p` models
`os.listdir`, `isFile`/`isDir` model `os.path.isfile`/`os.path.isdir`
(`os.path.exists` on a regular file is `isFile`), `size` models
`os.path.getsize`, `content` the byte stream `open(..., "rb")` reads,
and `mtimeIso` the value `get_file_timestamp` returns (the
modification time rendered as `%Y-%m-%dT%H:%M:%S`). -/
structure MFS where
  listdir : List String → List String
  isFile : List String → Bool
  isDir : List String → Bool
  size : List String → Nat
  content : List String → List Nat
  mtimeIso : List String → String

/-- One file reported by the walk: its group tag, its bare name and
the path it was found at. -/
structure ScanEntry where
  group : String
  filename : String
  path : List String
deriving DecidableEq, Repr

/-- Concatenation of the per-element lists, the shape of an appending
`for` loop. -/
def flatAppend {α β : Type} (f : α → List β) : List α → List β
  | [] => []
  | a :: rest => f a ++ flatAppend f rest

/-- The directory walk of `scan_downloads_folder` (lines 167–212 of
`file_monitor.py`): regular files directly under the root are tagged
`"~"` unless their name is excluded or names a category folder; then
each recognized category folder that exists as a directory has its
direct regular-file children tagged with the category name, skipping
excluded names.  Nothing deeper is ever listed. -/
def scan_fs (fs : MFS) (excluded category : List String) : List ScanEntry :=
  (fs.listdir []).filterMap (fun item =>
    if item ∈ excluded ∨ item ∈ category then none
    else if fs.isFile [item] then some ⟨"~", item, [item]⟩ else none)
  ++ flatAppend (fun c =>
    if fs.isDir [c] then
      (fs.listdir [c]).filterMap (fun item =>
        if item ∈ excluded then none
        else if fs.isFile [c, item] then some ⟨c, item, [c, item]⟩ else none)
    else []) category

/-- Models `calculate_sha1` (lines 15–52): `none` when the file does
not exist, the `"SKIPPED_TOO_LARGE"` sentinel when a size ceiling is
configured and `os.path.getsize` exceeds `max_size_mb * 1024 * 1024`
bytes, otherwise the digest of the file's bytes.  `hash` abstracts
`hashlib.sha1(...).hexdigest()`; chunked reading feeds the identical
byte stream, so the digest is a function of the content alone. -/
def calculate_sha1 (fs : MFS) (hash : List Nat → String) (p : List String)
    (maxMB : Option Nat) : Option String :=
  if fs.isFile p then
    match maxMB with
    | some m =>
      if fs.size p > m * 1024 * 1024 then some "SKIPPED_TOO_LARGE"
      else some (hash (fs.content p))
    | none => some (hash (fs.content p))
  else none

/-- Number of times `calculate_sha1` streams the file's bytes through
the hash for one call: 0 when the file is missing or skipped as too
large, 1 otherwise.  This is the injectable hash-call counter of the
incremental-correctness property. -/
def hashReads (fs : MFS) (p : List String) (maxMB : Option Nat) : Nat :=
  if fs.isFile p then
    match maxMB with
    | some m => if fs.size p > m * 1024 * 1024 then 0 else 1
    | none => 1
  else 0

/-- Models `_create_file_info` (lines 217–252): build the record for
one walked file, hashing only when enabled.  Note the function takes
no previous-store argument: nothing here consults earlier records. -/
def createFileInfo (fs : MFS) (hash : List Nat → String) (e : ScanEntry)
    (calcEnabled : Bool) (maxMB : Option Nat) : FileRecord :=
  { folder_name := e.group
    filename := e.filename
    sha1 := if calcEnabled then calculate_sha1 fs hash e.path maxMB else none
    timestamp := fs.mtimeIso e.path }

/-- Models `scan_downloads_folder` (lines 132–214): walk the tree and
build a record per reported file.  Its parameters are exactly those of
the Python function (with the OS and hashlib calls made explicit); no
previous store is among them. -/
def scan_downloads_folder (fs : MFS) (hash : List Nat → String)
    (excluded category : List String) (calcEnabled : Bool) (maxMB : Option Nat) :
    List FileRecord :=
  (scan_fs fs excluded category).map (fun e => createFileInfo fs hash e calcEnabled maxMB)

/-- Total number of hash computations one scan performs: the sum of
the per-file hash reads over every file the walk reports. -/
def scanHashReads (fs : MFS) (excluded category : List String)
    (calcEnabled : Bool) (maxMB : Option Nat) : Nat :=
  ((scan_fs fs excluded category).map
    (fun e => if calcEnabled then hashReads fs e.path maxMB else 0)).sum

/-- First-appearance deduplication, the key order of a Python dict
built by repeated insertion. -/
def firstDedup (l : List String) : List String :=
  l.foldl (fun acc x => if x ∈ acc then acc else acc ++ [x]) []

/-- Models `DuplicateDetector.find_duplicates` (lines 19–43 of
`duplicate_detector.py`): group records by usable fingerprint (absent,
empty and `"SKIPPED_TOO_LARGE"` fingerprints are never grouped) and
retain only the groups with at least two members. -/
def find_duplicates (files : List FileRecord) : List (String × List FileRecord) :=
  let keys := firstDedup (files.filterMap (fun r =>
    match r.sha1 with
    | some s => if usableSha1 (some s) then some s else none
    | none => none))
  (keys.map (fun k =>
    (k, files.filter (fun r => usableSha1 r.sha1 && (r.sha1 == some k))))).filter
    (fun kg => kg.2.length > 1)

/-- One advisory line of `suggest_cleanup`: an action (`"keep"` or
`"delete"`), the record it concerns and a human-readable reason. -/
structure Suggestion where
  action : String
  file : FileRecord
  reason : String
deriving DecidableEq, Repr

/-- Python's `sorted(files, key=lambda f: 0 if f.get("folder_name") == "~" else 1,
reverse=True)`: a stable descending sort on a two-valued key, which
places the category-folder records first (originals order preserved)
followed by the root-group records. -/
def sortedForCleanup (files : List FileRecord) : List FileRecord :=
  files.filter (fun f => f.folder_name ≠ "~") ++ files.filter (fun f => f.folder_name = "~")

/-- The body of `suggest_cleanup`'s per-group loop (lines 66–80 of
`duplicate_detector.py`): skip groups of at most one file, otherwise
keep the best-placed record and mark every other one for deletion. -/
def groupSuggestions (files : List FileRecord) : List Suggestion :=
  if files.length ≤ 1 then []
  else
    match sortedForCleanup files with
    | [] => []
    | best :: restFiles =>
      ⟨"keep", best, "Best location: " ++ best.folder_name⟩ ::
        restFiles.map (fun f => ⟨"delete", f, "Duplicate file"⟩)

/-- Models `DuplicateDetector.suggest_cleanup` (lines 63–82): the
concatenation of the per-group suggestions.  The method only returns
advice; it performs no filesystem action. -/
def suggest_cleanup (dups : List (String × List FileRecord)) : List Suggestion :=
  match dups with
  | [] => []
  | kv :: rest => groupSuggestions kv.2 ++ suggest_cleanup rest

/-- One CSV row as `csv.DictReader` hands it to `load_from_csv`: a
field is `none` when its column is absent from the file (or the row is
too short to fill it). -/
structure CsvRow where
  folder_name : Option String
  filename : Option String
  rel_path : Option String
  path : Option String
  sha1sum : Option String
  timestamp : Option String
  mtime_iso : Option String
deriving DecidableEq, Repr

/-- The group/filename split of a legacy composite path (lines
459–474 of `file_monitor.py`): strip a leading `~\`, split on `\`,
one part means a root file, two or more mean group then filename
(later parts are ignored); a path without the `~\` marker is treated
as a bare root filename. -/
def parseLegacyPath (p : String) : String × String :=
  match p.toList with
  | '~' :: '\\' :: rest =>
    match splitOnChar '\\' rest with
    | [single] => ("~", String.mk single)
    | a :: b :: _ => (String.mk a, String.mk b)
    | [] => ("~", "")
  | _ => ("~", p)

/-- The per-row body of `load_from_csv` (lines 452–493): rows with
explicit `folder_name`/`filename` columns are taken as-is, otherwise
the legacy composite `path` column is parsed — and a row whose `path`
column is missing raises, modelled as `none`.  The timestamp prefers
`mtime_iso` over the legacy `timestamp` column, and a missing
`sha1sum` column loads as `""`. -/
def parseRow (row : CsvRow) : Option FileRecord :=
  match row.folder_name, row.filename with
  | some fn, some fl =>
    some { folder_name := fn, filename := fl
           sha1 := some (row.sha1sum.getD "")
           timestamp :=
             match row.mtime_iso with
             | some v => v
             | none => row.timestamp.getD "" }
  | _, _ =>
    match row.path with
    | none => none
    | some p =>
      let gf := parseLegacyPath p
      some { folder_name := gf.1, filename := gf.2
             sha1 := some (row.sha1sum.getD "")
             timestamp :=
               match row.mtime_iso with
               | some v => v
               | none => row.timestamp.getD "" }

/-- Models the row loop of `load_from_csv` (lines 448–502): rows are
appended in order; the first row whose parse raises aborts the loop
(the exception is caught outside it), so the rows read so far are
returned and the rest are dropped. -/
def load_from_csv_rows : List CsvRow → List FileRecord
  | [] => []
  | row :: rest =>
    match parseRow row with
    | some rec => rec :: load_from_csv_rows rest
    | none => []

/-- Concrete filesystem for the walker witness: one root file, one
excluded root file, a category folder `Video` holding a file and a
subfolder `sub` whose own file sits two levels deep. -/
def exampleFS : MFS :=
  { listdir := fun p =>
      if p = [] then ["file1.txt", "desktop.ini", "Video"]
      else if p = ["Video"] then ["movie.mp4", "sub"]
      else if p = ["Video", "sub"] then ["deep.mkv"]
      else []
    isFile := fun p =>
      p = ["file1.txt"] ∨ p = ["desktop.ini"] ∨ p = ["Video", "movie.mp4"] ∨
        p = ["Video", "sub", "deep.mkv"]
    isDir := fun p => p = [] ∨ p = ["Video"] ∨ p = ["Video", "sub"]
    size := fun _ => 5
    content := fun _ => [104, 105]
    mtimeIso := fun _ => "2024-01-01T00:00:00" }

/-- The abstract digest function used by the concrete scan scenarios:
any function of the byte stream stands in for SHA1. -/
def exampleHash : List Nat → String :=
  fun c => "digest" ++ toString c.length

/-- A single-file filesystem for the incremental-reuse scenario: one
root file whose content and modification time never change between
runs. -/
def c1FS : MFS :=
  { listdir := fun p => if p = [] then ["a.txt"] else []
    isFile := fun p => p = ["a.txt"]
    isDir := fun p => p = []
    size := fun _ => 5
    content := fun _ => [104, 105]
    mtimeIso := fun _ => "2024-01-01T00:00:00" }

/-- The store left by the previous run over `c1FS`: the record for
`("~", "a.txt")` carries a real digest and exactly the timestamp the
filesystem still reports. -/
def c1PrevStore : List FileRecord :=
  [⟨"~", "a.txt", some (exampleHash [104, 105]), "2024-01-01T00:00:00"⟩]

theorem natCmp_self (a : Nat) : natCmp a a = 0 := by
  simp [natCmp]

theorem natCmp_antisymm (a b : Nat) : natCmp a b = -natCmp b a := by
  unfold natCmp
  split_ifs <;> omega

theorem dtCmp_self (d : PyDateTime) : dtCmp d d = 0 := by
  simp [dtCmp, natCmp_self]

theorem dtCmp_antisymm (a b : PyDateTime) : dtCmp a b = -dtCmp b a := by
  unfold dtCmp
  split_ifs <;> first
    | exact natCmp_antisymm ..
    | omega

theorem listCmp_self (l : List Char) : listCmp l l = 0 := by
  induction l with
  | nil => rfl
  | cons a t ih => simp [listCmp, ih]

theorem listCmp_antisymm (a b : List Char) : listCmp a b = -listCmp b a := by
  induction a generalizing b with
  | nil => cases b <;> rfl
  | cons x xs ih =>
    cases b with
    | nil => rfl
    | cons y ys =>
      unfold listCmp
      split_ifs <;> first | omega | exact ih ys

theorem strCmp_self (a : String) : strCmp a a = 0 := listCmp_self _

theorem strCmp_antisymm (a b : String) : strCmp a b = -strCmp b a := listCmp_antisymm _ _

/-- `compare_timestamps` is reflexive: equal strings compare equal on
every branch, so merging never sees a record as later than itself. -/
theorem compare_timestamps_self (t : String) : compare_timestamps t t = 0 := by
  unfold compare_timestamps
  split
  · cases h : fromisoformat t <;> simp [h, dtCmp_self, strCmp_self]
  · cases h : strptimeLegacy t <;> simp [h, dtCmp_self, strCmp_self]

/-- `compare_timestamps` is antisymmetric: swapping the arguments
negates the result on every branch. -/
theorem compare_timestamps_antisymm (a b : String) :
    compare_timestamps a b = -compare_timestamps b a := by
  unfold compare_timestamps
  rw [Bool.and_comm (b.toList.contains 'T')]
  split
  · cases h1 : fromisoformat a <;> cases h2 : fromisoformat b <;>
      first | exact strCmp_antisymm a b | exact dtCmp_antisymm ..
  · cases h1 : strptimeLegacy a <;> cases h2 : strptimeLegacy b <;>
      first | exact strCmp_antisymm a b | exact dtCmp_antisymm ..

theorem compare_timestamps_asymm {a b : String}
    (h : compare_timestamps a b > 0) : ¬ compare_timestamps b a > 0 := by
  have := compare_timestamps_antisymm a b
  omega

theorem compare_timestamps_self_not_pos (a : String) :
    ¬ compare_timestamps a a > 0 := by
  have := compare_timestamps_self a
  omega

theorem mostRecent_mem (n : FileRecord) (l : List FileRecord) :
    mostRecent n l ∈ n :: l := by
  suffices h : ∀ (l : List FileRecord) (acc : FileRecord),
      List.foldl
        (fun acc ex => if compare_timestamps ex.timestamp acc.timestamp > 0 then ex else acc)
        acc l ∈ acc :: l by
    exact h l n
  intro l
  induction l with
  | nil => intro acc; simp
  | cons a t ih =>
    intro acc
    simp only [List.foldl_cons]
    rcases List.mem_cons.mp (ih (if compare_timestamps a.timestamp acc.timestamp > 0 then a else acc)) with h | h
    · rw [h]
      split <;> simp
    · simp [h]

/-- When no candidate's timestamp compares strictly later than the
fresh record's, the fold keeps the fresh record. -/
theorem mostRecent_eq_self (n : FileRecord) (l : List FileRecord)
    (h : ∀ ex ∈ l, ¬ compare_timestamps ex.timestamp n.timestamp > 0) :
    mostRecent n l = n := by
  unfold mostRecent
  induction l with
  | nil => rfl
  | cons a t ih =>
    simp only [List.foldl_cons]
    rw [if_neg (h a (by simp))]
    exact ih (fun ex hex => h ex (by simp [hex]))

/-- When one candidate's timestamp compares strictly later than every
other candidate's, the fold returns exactly that candidate. -/
theorem mostRecent_eq_max (n m : FileRecord) (l : List FileRecord)
    (hm : m ∈ n :: l)
    (hmax : ∀ r ∈ n :: l, r = m ∨ compare_timestamps m.timestamp r.timestamp > 0) :
    mostRecent n l = m := by
  suffices key : ∀ (l : List FileRecord) (acc : FileRecord),
      (acc = m ∨ (compare_timestamps m.timestamp acc.timestamp > 0 ∧ m ∈ l)) →
      (∀ r ∈ l, r = m ∨ compare_timestamps m.timestamp r.timestamp > 0) →
      List.foldl
        (fun acc ex => if compare_timestamps ex.timestamp acc.timestamp > 0 then ex else acc)
        acc l = m by
    rcases List.mem_cons.mp hm with h | h
    · exact key l n (Or.inl h.symm) (fun r hr => hmax r (by simp [hr]))
    · rcases hmax n (by simp) with hn | hn
      · exact key l n (Or.inl hn) (fun r hr => hmax r (by simp [hr]))
      · exact key l n (Or.inr ⟨hn, h⟩) (fun r hr => hmax r (by simp [hr]))
  intro l
  induction l with
  | nil =>
    intro acc hacc _
    rcases hacc with h | h
    · simpa using h
    · simp at h
  | cons a t ih =>
    intro acc hacc hall
    simp only [List.foldl_cons]
    have hallt : ∀ r ∈ t, r = m ∨ compare_timestamps m.timestamp r.timestamp > 0 :=
      fun r hr => hall r (by simp [hr])
    rcases hacc with hacc | ⟨hgt, hmem⟩
    · rw [hacc]
      rcases hall a (by simp) with ham | ha
      · rw [ham, if_neg (compare_timestamps_self_not_pos _)]
        exact ih m (Or.inl rfl) hallt
      · rw [if_neg (compare_timestamps_asymm ha)]
        exact ih m (Or.inl rfl) hallt
    · rcases List.mem_cons.mp hmem with hma | hmt
      · rw [← hma, if_pos hgt]
        exact ih m (Or.inl rfl) hallt
      · rcases hall a (by simp) with ham | ha
        · rw [ham, if_pos hgt]
          exact ih m (Or.inl rfl) hallt
        · have hsplit : (if compare_timestamps a.timestamp acc.timestamp > 0 then a else acc) = a ∨
              (if compare_timestamps a.timestamp acc.timestamp > 0 then a else acc) = acc := by
            split <;> simp
          rcases hsplit with h | h <;> rw [h]
          · exact ih a (Or.inr ⟨ha, hmt⟩) hallt
          · exact ih acc (Or.inr ⟨hgt, hmt⟩) hallt

theorem mem_mergeIndex {existing : List FileRecord} {excl : List String} {k : String}
    {p : FileRecord} :
    p ∈ mergeIndex existing excl k ↔ p ∈ existing ∧ p.filename ∉ excl ∧ keyOf p = k := by
  simp [mergeIndex, List.mem_filter, and_assoc]

/-- The record emitted for a fresh record carries that record's key:
it is either the fresh record itself or one of the previous records
indexed under the same key. -/
theorem keyOf_keptRecord (existing : List FileRecord) (excl : List String) (n : FileRecord) :
    keyOf (keptRecord existing excl n) = keyOf n := by
  unfold keptRecord
  split
  · rfl
  · rcases List.mem_cons.mp (mostRecent_mem n (mergeIndex existing excl (keyOf n))) with h | h
    · rw [h]
    · exact (mem_mergeIndex.mp h).2.2

/-- The emitted keys are pairwise distinct and none of them was in the
`processed_keys` set on entry: the `processed_keys` guard admits each
key at most once. -/
theorem updateLoop_keys_nodup (existing : List FileRecord) (excl : List String) :
    ∀ (rest : List FileRecord) (processed : List String),
      ((updateLoop existing excl rest processed).map keyOf).Nodup ∧
      ∀ kk ∈ (updateLoop existing excl rest processed).map keyOf, kk ∉ processed := by
  intro rest
  induction rest with
  | nil => intro processed; simp [updateLoop]
  | cons n t ih =>
    intro processed
    by_cases h1 : n.filename ∈ excl
    · simpa [updateLoop, h1] using ih processed
    · by_cases h2 : keyOf n ∈ processed
      · simpa [updateLoop, h1, h2] using ih processed
      · have ihp := ih (keyOf n :: processed)
        constructor
        · simp only [updateLoop, if_neg h1, if_neg h2, List.map_cons, List.nodup_cons,
            keyOf_keptRecord]
          exact ⟨fun hmem => (ihp.2 _ hmem) (by simp), ihp.1⟩
        · intro kk hkk
          simp only [updateLoop, if_neg h1, if_neg h2, List.map_cons, List.mem_cons,
            keyOf_keptRecord] at hkk
          rcases hkk with hkk | hkk
          · rw [hkk]; exact h2
          · intro hp
            exact (ihp.2 kk hkk) (by simp [hp])

/-- Every non-excluded fresh record whose key is not yet processed
contributes its key to the output. -/
theorem updateLoop_key_mem (existing : List FileRecord) (excl : List String) :
    ∀ (rest : List FileRecord) (processed : List String) (r : FileRecord),
      r ∈ rest → r.filename ∉ excl → keyOf r ∉ processed →
      keyOf r ∈ (updateLoop existing excl rest processed).map keyOf := by
  intro rest
  induction rest with
  | nil => intro processed r hr; simp at hr
  | cons n t ih =>
    intro processed r hr hrx hrp
    rcases List.mem_cons.mp hr with hrn | hrt
    · by_cases h1 : n.filename ∈ excl
      · exact absurd (hrn ▸ h1) hrx
      · by_cases h2 : keyOf n ∈ processed
        · exact absurd (hrn ▸ h2) hrp
        · simp [updateLoop, h1, h2, keyOf_keptRecord, hrn]
    · by_cases h1 : n.filename ∈ excl
      · simp only [updateLoop, if_pos h1]
        exact ih processed r hrt hrx hrp
      · by_cases h2 : keyOf n ∈ processed
        · simp only [updateLoop, if_neg h1, if_pos h2]
          exact ih processed r hrt hrx hrp
        · simp only [updateLoop, if_neg h1, if_neg h2, List.map_cons, List.mem_cons,
            keyOf_keptRecord]
          by_cases hk : keyOf r = keyOf n
          · exact Or.inl hk
          · exact Or.inr (ih (keyOf n :: processed) r hrt hrx (by simp [hk, hrp]))

/-- Every output record arises from some fresh record as the record
`keptRecord` selects for its key. -/
theorem updateLoop_mem_src (existing : List FileRecord) (excl : List String) :
    ∀ (rest : List FileRecord) (processed : List String) (o : FileRecord),
      o ∈ updateLoop existing excl rest processed →
      ∃ r, r ∈ rest ∧ r.filename ∉ excl ∧ keyOf r ∉ processed ∧
        o = keptRecord existing excl r := by
  intro rest
  induction rest with
  | nil => intro processed o ho; simp [updateLoop] at ho
  | cons n t ih =>
    intro processed o ho
    by_cases h1 : n.filename ∈ excl
    · rw [updateLoop, if_pos h1] at ho
      obtain ⟨r, hr, hrx, hrp, hro⟩ := ih processed o ho
      exact ⟨r, by simp [hr], hrx, hrp, hro⟩
    · by_cases h2 : keyOf n ∈ processed
      · rw [updateLoop, if_neg h1, if_pos h2] at ho
        obtain ⟨r, hr, hrx, hrp, hro⟩ := ih processed o ho
        exact ⟨r, by simp [hr], hrx, hrp, hro⟩
      · rw [updateLoop, if_neg h1, if_neg h2] at ho
        rcases List.mem_cons.mp ho with hon | hot
        · exact ⟨n, by simp, h1, h2, hon⟩
        · obtain ⟨r, hr, hrx, hrp, hro⟩ := ih (keyOf n :: processed) o hot
          exact ⟨r, by simp [hr], hrx, fun hp => hrp (by simp [hp]), hro⟩

/-- Claim C4: the merge output has pairwise distinct identity keys;
the key of every non-excluded fresh record appears exactly once in the
output; and every previous record whose key does not occur among the
fresh records is absent from the output. -/
theorem claim_C4_merge_invariants (existing newData : List FileRecord) (excl : List String) :
    ((update_csv_data existing newData excl).map keyOf).Nodup ∧
    (∀ r ∈ newData, r.filename ∉ excl →
      ((update_csv_data existing newData excl).map keyOf).count (keyOf r) = 1) ∧
    (∀ p ∈ existing, keyOf p ∉ newData.map keyOf →
      p ∉ update_csv_data existing newData excl) := by
  refine ⟨(updateLoop_keys_nodup existing excl newData []).1, ?_, ?_⟩
  · intro r hr hrx
    exact List.count_eq_one_of_mem (updateLoop_keys_nodup existing excl newData []).1
      (updateLoop_key_mem existing excl newData [] r hr hrx (by simp))
  · intro p hp hpk hmem
    obtain ⟨r, hr, _, _, hro⟩ := updateLoop_mem_src existing excl newData [] p hmem
    exact hpk (by
      rw [show keyOf p = keyOf r from hro ▸ keyOf_keptRecord existing excl r]
      exact List.mem_map_of_mem keyOf hr)

/-- Claim C4 witness: a concrete merge instance of the invariants. -/
theorem claim_C4_merge_invariants_witness :
    let existing : List FileRecord :=
      [⟨"Video", "b", some "aa", "2024-06-01T00:00:00"⟩,
       ⟨"~", "old", some "gone", "2023-01-01T00:00:00"⟩]
    let newData : List FileRecord :=
      [⟨"~", "a", some "aa", "2024-01-01T00:00:00"⟩,
       ⟨"~", "c", some "cc", "2024-02-01T00:00:00"⟩]
    ((update_csv_data existing newData defaultMergeExcluded).map keyOf).Nodup ∧
    (∀ r ∈ newData, r.filename ∉ defaultMergeExcluded →
      ((update_csv_data existing newData defaultMergeExcluded).map keyOf).count (keyOf r) = 1) ∧
    (∀ p ∈ existing, keyOf p ∉ newData.map keyOf →
      p ∉ update_csv_data existing newData defaultMergeExcluded) :=
  claim_C4_merge_invariants _ _ _

/-- Claim C5: when one record among a fresh record and the previous
records indexed under its identity key has a strictly latest
timestamp, the merge output contains exactly that record for the key,
whether it came from the fresh or the previous side. -/
theorem claim_C5_merge_tiebreak (existing newData : List FileRecord) (excl : List String)
    (n m : FileRecord)
    (hn : n ∈ newData) (hnx : n.filename ∉ excl)
    (huniq : ∀ r ∈ newData, r.filename ∉ excl → keyOf r = keyOf n → r = n)
    (hm : m ∈ n :: mergeIndex existing excl (keyOf n))
    (hmax : ∀ r ∈ n :: mergeIndex existing excl (keyOf n),
      r = m ∨ compare_timestamps m.timestamp r.timestamp > 0) :
    m ∈ update_csv_data existing newData excl ∧
    ∀ o ∈ update_csv_data existing newData excl, keyOf o = keyOf n → o = m := by
  have hkept : keptRecord existing excl n = m := by
    unfold keptRecord
    split
    · rcases List.mem_cons.mp hm with h | h
      · exact h.symm
      · rename_i hemp
        rw [List.isEmpty_iff] at hemp
        rw [hemp] at h
        simp at h
    · exact mostRecent_eq_max n m _ hm hmax
  have huniq2 : ∀ o ∈ update_csv_data existing newData excl, keyOf o = keyOf n → o = m := by
    intro o ho hko
    obtain ⟨r, hr, hrx, _, hro⟩ := updateLoop_mem_src existing excl newData [] o ho
    have : keyOf r = keyOf n := by
      rw [← hko, hro, keyOf_keptRecord]
    rw [hro, huniq r hr hrx this, hkept]
  refine ⟨?_, huniq2⟩
  have := updateLoop_key_mem existing excl newData [] n hn hnx (by simp)
  obtain ⟨o, ho, hko⟩ := List.mem_map.mp this
  rw [← huniq2 o ho hko]
  exact ho

/-- Claim C5 witness: of two records sharing a key with timestamps
2024-01-01T00:00:00 and 2024-06-01T00:00:00, the later one (here on
the previous side) is the unique record the merge retains. -/
theorem claim_C5_merge_tiebreak_witness :
    let p : FileRecord := ⟨"Video", "b", some "aa", "2024-06-01T00:00:00"⟩
    let n : FileRecord := ⟨"~", "a", some "aa", "2024-01-01T00:00:00"⟩
    p ∈ update_csv_data [p] [n] defaultMergeExcluded ∧
    ∀ o ∈ update_csv_data [p] [n] defaultMergeExcluded, keyOf o = keyOf n → o = p := by
  intro p n
  exact claim_C5_merge_tiebreak [p] [n] defaultMergeExcluded n p
    (by decide) (by decide) (by decide) (by decide) (by decide)

/-- Claim C10: a previous record displaces a fresh record sharing its
key only with a strictly later timestamp; in particular when every
such previous record's timestamp compares equal-or-earlier (a tie
included), the merge output is exactly the fresh record. -/
theorem claim_C10_tie_keeps_fresh (existing : List FileRecord) (excl : List String)
    (n : FileRecord) (hnx : n.filename ∉ excl)
    (hno : ∀ p ∈ existing, p.filename ∉ excl → keyOf p = keyOf n →
      ¬ compare_timestamps p.timestamp n.timestamp > 0) :
    update_csv_data existing [n] excl = [n] := by
  have hstay : ∀ ex ∈ mergeIndex existing excl (keyOf n),
      ¬ compare_timestamps ex.timestamp n.timestamp > 0 := by
    intro ex hex
    obtain ⟨hmem, hx, hk⟩ := mem_mergeIndex.mp hex
    exact hno ex hmem hx hk
  have hkept : keptRecord existing excl n = n := by
    unfold keptRecord
    split
    · rfl
    · exact mostRecent_eq_self n _ hstay
  simp [update_csv_data, updateLoop, hnx, hkept]

/-- Claim C10 witness: a previous record with an exactly equal
timestamp (but a different path) does not displace the fresh record —
the merge keeps the fresh one. -/
theorem claim_C10_tie_keeps_fresh_witness :
    update_csv_data [⟨"Video", "b", some "aa", "2024-01-01T00:00:00"⟩]
      [⟨"~", "a", some "aa", "2024-01-01T00:00:00"⟩] defaultMergeExcluded
      = [⟨"~", "a", some "aa", "2024-01-01T00:00:00"⟩] :=
  claim_C10_tie_keeps_fresh _ _ _ (by decide) (by decide)

/-- In a store with pairwise distinct keys, the index at a member's
key holds exactly that member. -/
theorem mergeIndex_self_eq (excl : List String) :
    ∀ (S : List FileRecord), (∀ r ∈ S, r.filename ∉ excl) → (S.map keyOf).Nodup →
      ∀ r ∈ S, mergeIndex S excl (keyOf r) = [r] := by
  intro S
  induction S with
  | nil => intro _ _ r hr; simp at hr
  | cons s t ih =>
    intro hexcl hnodup r hr
    have hs : s.filename ∉ excl := hexcl s (by simp)
    have hnd := hnodup
    rw [List.map_cons, List.nodup_cons] at hnd
    rcases List.mem_cons.mp hr with hrs | hrt
    · have hrx : r.filename ∉ excl := by rw [hrs]; exact hs
      rw [← hrs] at hnd ⊢
      unfold mergeIndex
      rw [List.filter_cons_of_pos (by simp [hrx])]
      congr 1
      rw [List.filter_eq_nil_iff]
      intro a ha
      simp only [decide_eq_true_eq, not_and]
      intro _
      exact fun hk => hnd.1 (hk ▸ List.mem_map_of_mem keyOf ha)
    · have hks : keyOf s ≠ keyOf r := by
        intro hk
        exact hnd.1 (hk ▸ List.mem_map_of_mem keyOf hrt)
      unfold mergeIndex
      rw [List.filter_cons_of_neg (by simp [hks])]
      exact ih (fun x hx => hexcl x (by simp [hx])) hnd.2 r hrt

/-- The merge loop returns the fresh list unchanged when nothing is
excluded, no key is processed yet, the index at each fresh key is the
fresh record itself, and keys are pairwise distinct. -/
theorem updateLoop_id (S : List FileRecord) (excl : List String) :
    ∀ (rest : List FileRecord) (processed : List String),
      (∀ r ∈ rest, r.filename ∉ excl) →
      (∀ r ∈ rest, keyOf r ∉ processed) →
      (∀ r ∈ rest, mergeIndex S excl (keyOf r) = [r]) →
      (rest.map keyOf).Nodup →
      updateLoop S excl rest processed = rest := by
  intro rest
  induction rest with
  | nil => intro processed _ _ _ _; rfl
  | cons n t ih =>
    intro processed hexcl hproc hidx hnodup
    have hnd := hnodup
    rw [List.map_cons, List.nodup_cons] at hnd
    rw [updateLoop, if_neg (hexcl n (by simp)), if_neg (hproc n (by simp))]
    have hkept : keptRecord S excl n = n := by
      unfold keptRecord
      rw [hidx n (by simp), if_neg (by simp)]
      exact mostRecent_eq_self n [n] (by
        intro ex hex
        rcases List.mem_singleton.mp hex with rfl
        exact compare_timestamps_self_not_pos _)
    rw [hkept]
    congr 1
    refine ih (keyOf n :: processed) (fun r hr => hexcl r (by simp [hr])) ?_
      (fun r hr => hidx r (by simp [hr])) hnd.2
    intro r hr
    simp only [List.mem_cons, not_or]
    constructor
    · intro hk
      exact hnd.1 (hk ▸ List.mem_map_of_mem keyOf hr)
    · exact hproc r (by simp [hr])

/-- Claim C3 counterexample: merging a store with itself is not the
identity in general.  A store holding a record whose filename is in
the default exclusion list loses that record, and a store holding two
records sharing an identity key shrinks to one. -/
theorem claim_C3_counterexample :
    (update_csv_data [⟨"~", "desktop.ini", some "aa", "2024-01-01T00:00:00"⟩]
        [⟨"~", "desktop.ini", some "aa", "2024-01-01T00:00:00"⟩] defaultMergeExcluded
      ≠ [⟨"~", "desktop.ini", some "aa", "2024-01-01T00:00:00"⟩]) ∧
    (update_csv_data
        [⟨"~", "a", some "aa", "2024-01-01T00:00:00"⟩,
         ⟨"Video", "b", some "aa", "2024-06-01T00:00:00"⟩]
        [⟨"~", "a", some "aa", "2024-01-01T00:00:00"⟩,
         ⟨"Video", "b", some "aa", "2024-06-01T00:00:00"⟩] defaultMergeExcluded
      ≠ [⟨"~", "a", some "aa", "2024-01-01T00:00:00"⟩,
         ⟨"Video", "b", some "aa", "2024-06-01T00:00:00"⟩]) := by
  constructor <;> decide

/-- Claim C3 as amended: merging a store with itself is the identity
provided the store's records carry pairwise distinct identity keys and
no filename from the exclusion list. -/
theorem claim_C3_idempotent (S : List FileRecord) (excl : List String)
    (hexcl : ∀ r ∈ S, r.filename ∉ excl)
    (hnodup : (S.map keyOf).Nodup) :
    update_csv_data S S excl = S :=
  updateLoop_id S excl S [] hexcl (by simp) (mergeIndex_self_eq excl S hexcl hnodup) hnodup

/-- Claim C3 witness: a concrete two-record store (distinct keys, no
excluded names) merges with itself to itself. -/
theorem claim_C3_idempotent_witness :
    update_csv_data
      [⟨"~", "a", some "aa", "2024-01-01T00:00:00"⟩,
       ⟨"Video", "b", some "bb", "2024-06-01T00:00:00"⟩]
      [⟨"~", "a", some "aa", "2024-01-01T00:00:00"⟩,
       ⟨"Video", "b", some "bb", "2024-06-01T00:00:00"⟩] defaultMergeExcluded
      = [⟨"~", "a", some "aa", "2024-01-01T00:00:00"⟩,
         ⟨"Video", "b", some "bb", "2024-06-01T00:00:00"⟩] :=
  claim_C3_idempotent _ _ (by decide) (by decide)

/-- Claim C2 counterexample: a mixed pair where both sides parse — one
canonical ISO8601, one legacy short-date — is NOT normalized to
instants.  As instants 2024-01-01 is later than 2023-06-15 (the spec
comparator returns 1), but the code falls into the legacy branch,
fails to parse the ISO string as `%y/%m/%d`, and compares the raw
strings lexically, returning -1. -/
theorem claim_C2_counterexample :
    compare_timestamps "2024-01-01T00:00:00" "23/06/15" = -1 ∧
    compareTimestampsSpec "2024-01-01T00:00:00" "23/06/15" = 1 ∧
    normalizeTimestamp "2024-01-01T00:00:00" = some ⟨2024, 1, 1, 0, 0, 0⟩ ∧
    normalizeTimestamp "23/06/15" = some ⟨2023, 6, 15, 0, 0, 0⟩ := by
  refine ⟨by decide, by decide, by decide, by decide⟩

/-- Claim C2 as amended: `compare_timestamps` normalizes to instants
only when both strings are in the same representation — both contain
`T` and parse as ISO8601, or neither branch condition holds and both
parse as legacy short-dates.  A mixed pair (first ISO-shaped, second
legacy) falls back to raw lexical string comparison even though each
side parses in its own format. -/
theorem claim_C2_compare_branches (a b : String) (d1 d2 : PyDateTime) :
    (a.toList.contains 'T' = true → b.toList.contains 'T' = true →
      fromisoformat a = some d1 → fromisoformat b = some d2 →
      compare_timestamps a b = dtCmp d1 d2) ∧
    ((a.toList.contains 'T' && b.toList.contains 'T') = false →
      strptimeLegacy a = some d1 → strptimeLegacy b = some d2 →
      compare_timestamps a b = dtCmp d1 d2) ∧
    (a.toList.contains 'T' = true → b.toList.contains 'T' = false →
      strptimeLegacy a = none →
      compare_timestamps a b = strCmp a b) := by
  refine ⟨?_, ?_, ?_⟩
  · intro hta htb hpa hpb
    unfold compare_timestamps
    rw [if_pos (by rw [hta, htb]; rfl), hpa, hpb]
  · intro hf hpa hpb
    unfold compare_timestamps
    rw [if_neg (by rw [hf]; simp), hpa, hpb]
  · intro hta htb hpa
    unfold compare_timestamps
    rw [if_neg (by rw [hta, htb]; simp), hpa]

/-- Claim C2 witness: the mixed ISO/legacy pair takes the lexical
fallback branch of the amended statement. -/
theorem claim_C2_compare_branches_witness :
    compare_timestamps "2024-01-01T00:00:00" "23/06/15"
      = strCmp "2024-01-01T00:00:00" "23/06/15" :=
  (claim_C2_compare_branches "2024-01-01T00:00:00" "23/06/15"
      ⟨1, 1, 1, 0, 0, 0⟩ ⟨1, 1, 1, 0, 0, 0⟩).2.2
    (by decide) (by decide) (by decide)

theorem mem_flatAppend {α β : Type} (f : α → List β) (l : List α) (b : β) :
    b ∈ flatAppend f l ↔ ∃ a ∈ l, b ∈ f a := by
  induction l with
  | nil => simp [flatAppend]
  | cons x xs ih => simp [flatAppend, ih]

/-- Claim C8: every entry the walk reports is either a root file
tagged with the `~` sentinel (name outside both the exclusion set and
the category list) or a direct child of a recognized category folder
tagged with that category (name outside the exclusion set); reported
paths therefore never descend more than one level into a category
folder.  Conversely, every non-excluded root regular file and every
non-excluded direct regular-file child of an existing category folder
is reported. -/
theorem claim_C8_walker (fs : MFS) (excluded category : List String) :
    (∀ e ∈ scan_fs fs excluded category,
      (e.group = "~" ∧ e.path = [e.filename] ∧ fs.isFile [e.filename] = true ∧
        e.filename ∉ excluded ∧ e.filename ∉ category) ∨
      (e.group ∈ category ∧ e.path = [e.group, e.filename] ∧ fs.isFile e.path = true ∧
        e.filename ∉ excluded)) ∧
    (∀ e ∈ scan_fs fs excluded category, e.path.length ≤ 2) ∧
    (∀ n, n ∈ fs.listdir [] → n ∉ excluded → n ∉ category → fs.isFile [n] = true →
      ScanEntry.mk "~" n [n] ∈ scan_fs fs excluded category) ∧
    (∀ c n, c ∈ category → fs.isDir [c] = true → n ∈ fs.listdir [c] → n ∉ excluded →
      fs.isFile [c, n] = true →
      ScanEntry.mk c n [c, n] ∈ scan_fs fs excluded category) := by
  have hchar : ∀ e ∈ scan_fs fs excluded category,
      (e.group = "~" ∧ e.path = [e.filename] ∧ fs.isFile [e.filename] = true ∧
        e.filename ∉ excluded ∧ e.filename ∉ category) ∨
      (e.group ∈ category ∧ e.path = [e.group, e.filename] ∧ fs.isFile e.path = true ∧
        e.filename ∉ excluded) := by
    intro e he
    rcases List.mem_append.mp he with hroot | hcat
    · left
      obtain ⟨item, hitem, heq⟩ := List.mem_filterMap.mp hroot
      by_cases hx : item ∈ excluded ∨ item ∈ category
      · rw [if_pos hx] at heq; exact absurd heq (by simp)
      · rw [if_neg hx] at heq
        by_cases hf : fs.isFile [item] = true
        · rw [if_pos hf] at heq
          obtain rfl := Option.some_injective _ heq
          exact ⟨rfl, rfl, hf, fun h => hx (Or.inl h), fun h => hx (Or.inr h)⟩
        · rw [if_neg hf] at heq; exact absurd heq (by simp)
    · right
      obtain ⟨c, hc, hec⟩ := (mem_flatAppend _ category e).mp hcat
      by_cases hd : fs.isDir [c] = true
      · rw [if_pos hd] at hec
        obtain ⟨item, hitem, heq⟩ := List.mem_filterMap.mp hec
        by_cases hx : item ∈ excluded
        · rw [if_pos hx] at heq; exact absurd heq (by simp)
        · rw [if_neg hx] at heq
          by_cases hf : fs.isFile [c, item] = true
          · rw [if_pos hf] at heq
            obtain rfl := Option.some_injective _ heq
            exact ⟨hc, rfl, hf, hx⟩
          · rw [if_neg hf] at heq; exact absurd heq (by simp)
      · rw [if_neg hd] at hec; exact absurd hec (by simp)
  refine ⟨hchar, ?_, ?_, ?_⟩
  · intro e he
    rcases hchar e he with ⟨_, hp, _⟩ | ⟨_, hp, _⟩ <;> simp [hp]
  · intro n hn hnx hnc hf
    apply List.mem_append_left
    apply List.mem_filterMap.mpr
    exact ⟨n, hn, by rw [if_neg (by tauto), if_pos hf]⟩
  · intro c n hc hd hn hnx hf
    apply List.mem_append_right
    apply (mem_flatAppend _ category _).mpr
    refine ⟨c, hc, ?_⟩
    rw [if_pos hd]
    apply List.mem_filterMap.mpr
    exact ⟨n, hn, by rw [if_neg hnx, if_pos hf]⟩

/-- Claim C8 witness: on the concrete tree the walk reports exactly
the root file tagged `~` and the category file tagged `Video`; the
file two levels deep and the excluded name are absent, and the
characterization holds of each reported entry. -/
theorem claim_C8_walker_witness :
    scan_fs exampleFS ["desktop.ini"] ["Video"]
      = [⟨"~", "file1.txt", ["file1.txt"]⟩, ⟨"Video", "movie.mp4", ["Video", "movie.mp4"]⟩] ∧
    ScanEntry.mk "~" "file1.txt" ["file1.txt"] ∈ scan_fs exampleFS ["desktop.ini"] ["Video"] ∧
    ScanEntry.mk "Video" "movie.mp4" ["Video", "movie.mp4"]
      ∈ scan_fs exampleFS ["desktop.ini"] ["Video"] ∧
    ∀ e ∈ scan_fs exampleFS ["desktop.ini"] ["Video"], e.path.length ≤ 2 := by
  refine ⟨by decide, ?_, ?_, ?_⟩
  · exact (claim_C8_walker exampleFS ["desktop.ini"] ["Video"]).2.2.1 "file1.txt"
      (by decide) (by decide) (by decide) (by decide)
  · exact (claim_C8_walker exampleFS ["desktop.ini"] ["Video"]).2.2.2 "Video" "movie.mp4"
      (by decide) (by decide) (by decide) (by decide) (by decide)
  · exact (claim_C8_walker exampleFS ["desktop.ini"] ["Video"]).2.1

theorem length_sortedForCleanup (files : List FileRecord) :
    (sortedForCleanup files).length = files.length := by
  induction files with
  | nil => rfl
  | cons a t ih =>
    unfold sortedForCleanup at *
    by_cases h : a.folder_name = "~"
    · rw [List.filter_cons_of_neg (by simp [h]), List.filter_cons_of_pos (by simp [h])]
      simp only [List.length_append, List.length_cons] at *
      omega
    · rw [List.filter_cons_of_pos (by simp [h]), List.filter_cons_of_neg (by simp [h])]
      simp only [List.length_append, List.length_cons] at *
      omega

theorem mem_sortedForCleanup {files : List FileRecord} {f : FileRecord}
    (h : f ∈ sortedForCleanup files) : f ∈ files := by
  rcases List.mem_append.mp h with h | h <;> exact (List.mem_filter.mp h).1

/-- When some record lives outside the root group, the sorted list
opens with such a record: the category-folder filter block precedes
the root block. -/
theorem sortedForCleanup_head_not_root {files : List FileRecord} {best : FileRecord}
    {restFiles : List FileRecord}
    (hS : sortedForCleanup files = best :: restFiles)
    (hex : ∃ f ∈ files, f.folder_name ≠ "~") :
    best.folder_name ≠ "~" := by
  obtain ⟨f, hf, hfr⟩ := hex
  have hne : files.filter (fun g => g.folder_name ≠ "~") ≠ [] := by
    intro hnil
    have : f ∈ files.filter (fun g => g.folder_name ≠ "~") := by
      rw [List.mem_filter]
      exact ⟨hf, by simp [hfr]⟩
    rw [hnil] at this
    simp at this
  unfold sortedForCleanup at hS
  cases hfl : files.filter (fun g => g.folder_name ≠ "~") with
  | nil => exact absurd hfl hne
  | cons x xs =>
    rw [hfl] at hS
    have hx : x ∈ files.filter (fun g => g.folder_name ≠ "~") := by rw [hfl]; simp
    have hbx : best = x := by
      have := congrArg (fun l => l.head?) hS
      simpa using this.symm
    rw [hbx]
    have := (List.mem_filter.mp hx).2
    simpa using this

/-- Claim C9: for every group of at least two records,
`suggest_cleanup` emits exactly one keep suggestion followed by N−1
delete suggestions; every suggestion carries a non-empty reason and
concerns a record of the group; the keep suggestion names a
category-folder record whenever the group has one; every group
`find_duplicates` builds has at least two members, and for a
two-record group with a root copy and a category copy the category
copy is kept and the root copy deleted.  The advisor returns advice
only — it is a pure function of the groups. -/
theorem claim_C9_cleanup (files : List FileRecord) (h2 : 2 ≤ files.length) :
    ((groupSuggestions files).map Suggestion.action
      = "keep" :: List.replicate (files.length - 1) "delete") ∧
    (∀ s ∈ groupSuggestions files, s.reason ≠ "") ∧
    (∀ s ∈ groupSuggestions files, s.file ∈ files) ∧
    (∀ s ∈ groupSuggestions files, s.action = "keep" →
      (∃ f ∈ files, f.folder_name ≠ "~") → s.file.folder_name ≠ "~") ∧
    (∀ k : String, suggest_cleanup [(k, files)] = groupSuggestions files) ∧
    (∀ (files0 : List FileRecord) (kg : String × List FileRecord),
      kg ∈ find_duplicates files0 → 2 ≤ kg.2.length) ∧
    (∀ r c : FileRecord, r.folder_name = "~" → c.folder_name ≠ "~" →
      groupSuggestions [r, c]
        = [⟨"keep", c, "Best location: " ++ c.folder_name⟩, ⟨"delete", r, "Duplicate file"⟩]) := by
  have hnotle : ¬ files.length ≤ 1 := by omega
  have hlen := length_sortedForCleanup files
  cases hS : sortedForCleanup files with
  | nil => rw [hS] at hlen; simp at hlen; omega
  | cons best restFiles =>
    have hG : groupSuggestions files
        = ⟨"keep", best, "Best location: " ++ best.folder_name⟩ ::
            restFiles.map (fun f => ⟨"delete", f, "Duplicate file"⟩) := by
      unfold groupSuggestions
      rw [if_neg hnotle, hS]
    have hrest : restFiles.length = files.length - 1 := by
      rw [hS] at hlen
      simp only [List.length_cons] at hlen
      omega
    refine ⟨?_, ?_, ?_, ?_, ?_, ?_, ?_⟩
    · rw [hG]
      simp only [List.map_cons, List.map_map]
      congr 1
      rw [show ((fun s => s.action) ∘ fun f => (⟨"delete", f, "Duplicate file"⟩ : Suggestion))
          = fun _ => "delete" from rfl]
      rw [List.map_const', hrest]
    · intro s hs
      rw [hG] at hs
      rcases List.mem_cons.mp hs with hh | ht
      · rw [hh]
        intro hx
        have hcl := congrArg String.length hx
        rw [String.length_append] at hcl
        have h15 : ("Best location: " : String).length = 15 := by decide
        have h0 : ("" : String).length = 0 := by decide
        omega
      · obtain ⟨f, _, hfe⟩ := List.mem_map.mp ht
        rw [← hfe]
        show ("Duplicate file" : String) ≠ ""
        decide
    · intro s hs
      rw [hG] at hs
      rcases List.mem_cons.mp hs with hh | ht
      · rw [hh]
        exact mem_sortedForCleanup (hS ▸ List.mem_cons_self best restFiles)
      · obtain ⟨f, hf, hfe⟩ := List.mem_map.mp ht
        rw [← hfe]
        exact mem_sortedForCleanup (hS ▸ List.mem_cons_of_mem best hf)
    · intro s hs hkeep hex
      rw [hG] at hs
      rcases List.mem_cons.mp hs with hh | ht
      · rw [hh]
        exact sortedForCleanup_head_not_root hS hex
      · obtain ⟨f, _, hfe⟩ := List.mem_map.mp ht
        rw [← hfe] at hkeep
        simp at hkeep
    · intro k
      simp [suggest_cleanup]
    · intro files0 kg hkg
      have := (List.mem_filter.mp hkg).2
      simp only [decide_eq_true_eq] at this
      omega
    · intro r c hr hc
      have hlen2 : ¬ ([r, c] : List FileRecord).length ≤ 1 := by simp
      have hsort : sortedForCleanup [r, c] = [c, r] := by
        unfold sortedForCleanup
        rw [List.filter_cons_of_neg (by simp [hr]), List.filter_cons_of_pos (by simp [hc]),
          List.filter_cons_of_pos (by simp [hr]), List.filter_cons_of_neg (by simp [hc])]
        simp
      unfold groupSuggestions
      rw [if_neg hlen2, hsort]
      simp

/-- Claim C9 witness: a two-record duplicate group (one root copy,
one `Video` copy) yields one keep for the `Video` copy and one delete
for the root copy, reasons included. -/
theorem claim_C9_cleanup_witness :
    ((groupSuggestions
        [⟨"~", "x", some "aa", "2024-01-01T00:00:00"⟩,
         ⟨"Video", "x", some "aa", "2024-02-01T00:00:00"⟩]).map Suggestion.action
      = "keep" :: List.replicate 1 "delete") ∧
    groupSuggestions
        [⟨"~", "x", some "aa", "2024-01-01T00:00:00"⟩,
         ⟨"Video", "x", some "aa", "2024-02-01T00:00:00"⟩]
      = [⟨"keep", ⟨"Video", "x", some "aa", "2024-02-01T00:00:00"⟩, "Best location: Video"⟩,
         ⟨"delete", ⟨"~", "x", some "aa", "2024-01-01T00:00:00"⟩, "Duplicate file"⟩] := by
  constructor
  · exact (claim_C9_cleanup
      [⟨"~", "x", some "aa", "2024-01-01T00:00:00"⟩,
       ⟨"Video", "x", some "aa", "2024-02-01T00:00:00"⟩] (by decide)).1
  · exact (claim_C9_cleanup
      [⟨"~", "x", some "aa", "2024-01-01T00:00:00"⟩,
       ⟨"Video", "x", some "aa", "2024-02-01T00:00:00"⟩] (by decide)).2.2.2.2.2.2
      ⟨"~", "x", some "aa", "2024-01-01T00:00:00"⟩
      ⟨"Video", "x", some "aa", "2024-02-01T00:00:00"⟩ (by decide) (by decide)

/-- Claim C6: a file over the configured ceiling gets the
`SKIPPED_TOO_LARGE` sentinel instead of a digest; the sentinel and an
absent or empty fingerprint are unusable; no record with an unusable
fingerprint ever appears in a `find_duplicates` group; and every such
record's merge identity key is the `PATH:` fallback, never a
fingerprint. -/
theorem claim_C6_sentinel (fs : MFS) (hash : List Nat → String) (p : List String) (m : Nat)
    (hf : fs.isFile p = true) (hsz : fs.size p > m * 1024 * 1024) :
    calculate_sha1 fs hash p (some m) = some "SKIPPED_TOO_LARGE" ∧
    usableSha1 (some "SKIPPED_TOO_LARGE") = false ∧
    usableSha1 (some "") = false ∧
    usableSha1 none = false ∧
    (∀ (files : List FileRecord) (r : FileRecord), usableSha1 r.sha1 = false →
      ∀ kg ∈ find_duplicates files, r ∉ kg.2) ∧
    (∀ r : FileRecord, usableSha1 r.sha1 = false → keyOf r = pathKey r) := by
  refine ⟨?_, by decide, by decide, by decide, ?_, ?_⟩
  · unfold calculate_sha1
    rw [if_pos hf]
    show (if fs.size p > m * 1024 * 1024 then some "SKIPPED_TOO_LARGE"
      else some (hash (fs.content p))) = some "SKIPPED_TOO_LARGE"
    rw [if_pos hsz]
  · intro files r hr kg hkg hmem
    have hkg2 := (List.mem_filter.mp hkg).1
    obtain ⟨k, _, hkeq⟩ := List.mem_map.mp hkg2
    rw [← hkeq] at hmem
    have hrf : r ∈ files.filter (fun x => usableSha1 x.sha1 && (x.sha1 == some k)) := hmem
    have := (List.mem_filter.mp hrf).2
    rw [hr] at this
    simp at this
  · intro r hr
    unfold keyOf
    unfold usableSha1 at hr
    cases hsha : r.sha1 with
    | none => rfl
    | some s =>
      rw [hsha] at hr
      have hr2 : (if s = "" ∨ s = "SKIPPED_TOO_LARGE" then false else true) = false := hr
      show (if s = "" ∨ s = "SKIPPED_TOO_LARGE" then pathKey r else s) = pathKey r
      by_cases hc : s = "" ∨ s = "SKIPPED_TOO_LARGE"
      · rw [if_pos hc]
      · rw [if_neg hc] at hr2
        simp at hr2

/-- Claim C6 witness: on the concrete filesystem a 5-byte file with a
0 MB ceiling is skipped with the sentinel, and the sentinel record is
path-keyed and never grouped. -/
theorem claim_C6_sentinel_witness :
    calculate_sha1 exampleFS (fun c => "digest" ++ toString c.length) ["file1.txt"] (some 0)
      = some "SKIPPED_TOO_LARGE" ∧
    usableSha1 (some "SKIPPED_TOO_LARGE") = false ∧
    usableSha1 (some "") = false ∧
    usableSha1 none = false ∧
    (∀ (files : List FileRecord) (r : FileRecord), usableSha1 r.sha1 = false →
      ∀ kg ∈ find_duplicates files, r ∉ kg.2) ∧
    (∀ r : FileRecord, usableSha1 r.sha1 = false → keyOf r = pathKey r) :=
  claim_C6_sentinel exampleFS (fun c => "digest" ++ toString c.length) ["file1.txt"] 0
    (by decide) (by decide)

/-- Claim C7 counterexample: a malformed legacy row (its composite
`path` column missing, as for a short row) does not merely lose that
row — the rows after it are lost too, because the exception is caught
outside the row loop.  The well-formed third row parses, yet its
record is absent from the loaded result. -/
theorem claim_C7_counterexample :
    parseRow ⟨none, none, none, none, some "bb", none, some "2024-01-02T00:00:00"⟩ = none ∧
    parseRow ⟨none, none, none, some "~\\b.txt", some "cc", none, some "2024-01-03T00:00:00"⟩
      = some ⟨"~", "b.txt", some "cc", "2024-01-03T00:00:00"⟩ ∧
    load_from_csv_rows
      [⟨none, none, none, some "~\\a.txt", some "aa", none, some "2024-01-01T00:00:00"⟩,
       ⟨none, none, none, none, some "bb", none, some "2024-01-02T00:00:00"⟩,
       ⟨none, none, none, some "~\\b.txt", some "cc", none, some "2024-01-03T00:00:00"⟩]
      = [⟨"~", "a.txt", some "aa", "2024-01-01T00:00:00"⟩] ∧
    (⟨"~", "b.txt", some "cc", "2024-01-03T00:00:00"⟩ : FileRecord) ∉
      load_from_csv_rows
        [⟨none, none, none, some "~\\a.txt", some "aa", none, some "2024-01-01T00:00:00"⟩,
         ⟨none, none, none, none, some "bb", none, some "2024-01-02T00:00:00"⟩,
         ⟨none, none, none, some "~\\b.txt", some "cc", none, some "2024-01-03T00:00:00"⟩] := by
  refine ⟨by decide, by decide, by decide, by decide⟩

/-- Claim C7 as amended: a malformed row is non-fatal in the sense
that the load still returns normally with every row parsed before the
malformed one; but the malformed row and everything after it are
dropped (the loop is aborted, not continued). -/
theorem claim_C7_load_aborts (pre suf : List CsvRow) (bad : CsvRow)
    (hpre : ∀ row ∈ pre, (parseRow row).isSome) (hbad : parseRow bad = none) :
    load_from_csv_rows (pre ++ bad :: suf) = pre.filterMap parseRow := by
  induction pre with
  | nil =>
    rw [List.nil_append, List.filterMap_nil, load_from_csv_rows, hbad]
  | cons r t ih =>
    obtain ⟨rec, hrec⟩ := Option.isSome_iff_exists.mp (hpre r (by simp))
    rw [List.cons_append, load_from_csv_rows, hrec, List.filterMap_cons, hrec]
    rw [ih (fun row hrow => hpre row (by simp [hrow]))]

/-- Claim C7 witness: with one good row before and one after the
malformed row, the load returns exactly the first row's record. -/
theorem claim_C7_load_aborts_witness :
    load_from_csv_rows
      ([⟨none, none, none, some "~\\Video\\v.mp4", some "dd", none, some "2024-01-04T00:00:00"⟩]
        ++ ⟨none, none, none, none, some "bb", none, none⟩ ::
          [⟨none, none, none, some "~\\c.txt", some "ee", none, some "2024-01-05T00:00:00"⟩])
      = [⟨none, none, none, some "~\\Video\\v.mp4", some "dd", none,
          some "2024-01-04T00:00:00"⟩].filterMap parseRow :=
  claim_C7_load_aborts _ _ _ (by decide) (by decide)

/-- Claim C1: the previous store matches the unchanged file by
(group, filename), stores the identical timestamp and a usable digest
— the conditions under which the spec forbids re-hashing — yet the
scan performs one hash read, not zero, and recomputes the digest from
the file's bytes.  `scan_downloads_folder` (and `_create_file_info`)
take no previous-store input at all, so no lookup can occur. -/
theorem claim_C1_rescan_always_hashes :
    c1PrevStore = [⟨"~", "a.txt", some "digest2", "2024-01-01T00:00:00"⟩] ∧
    c1FS.mtimeIso ["a.txt"] = "2024-01-01T00:00:00" ∧
    usableSha1 (some "digest2") = true ∧
    scanHashReads c1FS [] [] true none = 1 ∧
    scan_downloads_folder c1FS exampleHash [] [] true none
      = [⟨"~", "a.txt", some (exampleHash (c1FS.content ["a.txt"])), "2024-01-01T00:00:00"⟩] := by
  refine ⟨by decide, by decide, by decide, by decide, by decide⟩
